import Mathlib

/-!
Verification of the two maintenance scripts of the frequency-finder
repository: `clean_xcode_references.py` (the Reference Cleaner) and
`update_project_files.py` (the Structure Checker).

Texts are embedded as `List Char`.  The cleaner's regular-expression
substitutions all have the shape `.*L1.*L2….*\n` where each `Li` is a
literal string (the Python code escapes the filename with `re.escape`,
and "in Sources" / "Sources" are literal): in Python, `.` does not match
a newline, and `re.sub` scans the text left to right, removing each
non-overlapping match and resuming right after it.  A match of such a
pattern anchored at a position therefore consists of newline-free text
containing the literals in order, followed by the first newline at or
after that position; `matchAt` and `reSubFuel` below embed exactly this.
-/

namespace FF

/-- `startsWith a s` is true when the literal `a` is a prefix of `s`
(character-by-character comparison). -/
def startsWith : List Char → List Char → Bool
  | [], _ => true
  | _ :: _, [] => false
  | a :: as, b :: bs => a = b && startsWith as bs

/-- Scan `s` left to right for the first occurrence of the literal `a`;
return the suffix of `s` that follows that occurrence. -/
def findLit (a : List Char) : List Char → Option (List Char)
  | [] => if startsWith a [] then some [] else none
  | c :: t =>
    if startsWith a (c :: t) then some ((c :: t).drop a.length)
    else findLit a t

/-- `containsInOrder lits s` decides whether `s` contains the literals of
`lits` in order, each occurrence after the previous one — exactly when
the regex `.*L1.*L2….*` matches `s` with `.` excluding newlines and `s`
newline-free. -/
def containsInOrder : List (List Char) → List Char → Bool
  | [], _ => true
  | a :: rest, s =>
    match findLit a s with
    | none => false
    | some v => containsInOrder rest v

/-- Split `s` at its first newline: `some (line, rest)` with
`s = line ++ '\n' :: rest` and `line` newline-free, or `none` when `s`
has no newline. -/
def splitFirstNewline : List Char → Option (List Char × List Char)
  | [] => none
  | c :: t =>
    if c = '\n' then some ([], t)
    else
      match splitFirstNewline t with
      | none => none
      | some (l, r) => some (c :: l, r)

/-- Attempt of the pattern `.*L1.*L2….*\n` at the start of `s` (Python
`.` does not match `'\n'`, so the match, if any, ends right after the
first newline of `s`): `some rest` leaves the text after the match. -/
def matchAt (lits : List (List Char)) (s : List Char) : Option (List Char) :=
  match splitFirstNewline s with
  | none => none
  | some (line, rest) => if containsInOrder lits line then some rest else none

/-- The scanning loop of Python `re.sub(pattern, '', s)` for a pattern
`.*L1.*L2….*\n`: try a match at each position, drop the matched text and
resume after it, otherwise keep the character and advance.  `fuel` only
bounds the recursion; `reSub` supplies `s.length`, which always
suffices. -/
def reSubFuel (lits : List (List Char)) : Nat → List Char → List Char
  | _, [] => []
  | 0, s => s
  | fuel + 1, c :: t =>
    match matchAt lits (c :: t) with
    | some rest => reSubFuel lits fuel rest
    | none => c :: reSubFuel lits fuel t

/-- `re.sub(rf'.*L1.*L2….*\n', '', s)` of the source. -/
def reSub (lits : List (List Char)) (s : List Char) : List Char :=
  reSubFuel lits s.length s

/-- The `old_files` list of `clean_xcode_references.py`. -/
def oldFiles : List (List Char) :=
  ["OldEnhancedSpotifyManager.swift".toList,
   "OldUnifiedSpotifyManager.swift".toList,
   "OldPersistentSpotifyView.swift".toList,
   "OldSpotifyManager.swift".toList,
   "OldSimpleSpotifyManager.swift".toList]

/-- The literal `"in Sources"` of the first substitution's pattern. -/
def inSources : List Char := "in Sources".toList

/-- The literal `"Sources"` of the third substitution's pattern. -/
def sourcesLit : List Char := "Sources".toList

/-- The loop body of `clean_xcode_references.py` for one filename: the
three `re.sub` calls in the source's order — (a) `.*f.*in Sources.*\n`,
(b) `.*f.*\n`, (c) `.*f.*Sources.*\n`. -/
def removeForFile (f s : List Char) : List Char :=
  reSub [f, sourcesLit] (reSub [f] (reSub [f, inSources] s))

/-- The whole in-memory transform of `clean_xcode_references.py`: the
loop over `old_files`. -/
def cleanContent (s : List Char) : List Char :=
  oldFiles.foldl (fun c f => removeForFile f c) s

/-- The filesystem slice the Reference Cleaner touches: the manifest
(`project.pbxproj`) and its sibling backup file, each `none` when
absent. -/
structure FSState where
  manifest : Option (List Char)
  backup : Option (List Char)
deriving DecidableEq

/-- What one run of the cleaner prints about its outcome: the
"project.pbxproj not found" failure, "Cleaned n characters of old
references", or "No old file references found in project file". -/
inductive Report where
  | notFound
  | cleaned (n : Nat)
  | noRefs
deriving DecidableEq

/-- Result of one run of the cleaner: the filesystem afterwards, the
returned boolean, and the report. -/
structure RunResult where
  fs : FSState
  ret : Bool
  report : Report
deriving DecidableEq

/-- `clean_xcode_references()`: if the manifest does not exist, report
failure and return `False`; otherwise copy the manifest to the backup,
apply the transform, and overwrite the manifest exactly when the
transformed text's length differs from the original's. -/
def clean_xcode_references (fs : FSState) : RunResult :=
  match fs.manifest with
  | none => ⟨fs, false, Report.notFound⟩
  | some content =>
    let fs1 : FSState := ⟨some content, some content⟩
    let original_length := content.length
    let cleaned := cleanContent content
    if cleaned.length ≠ original_length then
      ⟨⟨some cleaned, some content⟩, true, Report.cleaned (original_length - cleaned.length)⟩
    else
      ⟨fs1, false, Report.noRefs⟩

/-- The hard-coded base directory of `update_project_files.py`. -/
def base_path : String := "/Users/davidnyman/Code/FrequencyFinder/FrequencyFinder"

/-- The `file_mapping` dictionary of `create_file_mapping()`, in source
order. -/
def file_mapping : List (String × String) :=
  [("FrequencyFinder.swift", "App/FrequencyFinder.swift"),
   ("AppDelegate.swift", "App/AppDelegate.swift"),
   ("TunerScreen.swift", "App/TunerScreen.swift"),
   ("Models/Frequency.swift", "Core/Models/Audio/Frequency.swift"),
   ("Models/PitchTracker.swift", "Core/Models/Audio/PitchTracker.swift"),
   ("Models/Recorder.swift", "Core/Models/Audio/Recorder.swift"),
   ("Models/TunerData.swift", "Core/Models/Audio/TunerData.swift"),
   ("Models/ScaleNote.swift", "Core/Models/Music/ScaleNote.swift"),
   ("Models/NoteMatcher.swift", "Core/Models/Music/NoteMatcher.swift"),
   ("Models/ModifierPreference.swift", "Core/Models/Music/ModifierPreference.swift"),
   ("Models/UserProfile.swift", "Core/Models/User/UserProfile.swift"),
   ("Models/ReadingPassage.swift", "Core/Models/User/ReadingPassage.swift"),
   ("Models/SpotifyUserProfile.swift", "Core/Models/Spotify/SpotifyUserProfile.swift"),
   ("Models/StatisticsCalculator.swift", "Core/Utilities/StatisticsCalculator.swift"),
   ("UserProfileManager.swift", "Core/Services/User/UserProfileManager.swift"),
   ("Views/TunerView.swift", "Features/Tuner/Views/TunerView.swift"),
   ("Views/ProfileView.swift", "Features/Profile/Views/ProfileView.swift"),
   ("ViewModels/ReadingPassageViewModel.swift",
    "Features/ReadingPassage/ViewModels/ReadingPassageViewModel.swift"),
   ("ViewModels/WebReadingPassageViewModel.swift",
    "Features/ReadingPassage/ViewModels/WebReadingPassageViewModel.swift"),
   ("Helpers/Alignment.swift", "Supporting Files/Helpers/Alignment.swift"),
   ("Helpers/Color+MusicalDistance.swift",
    "Supporting Files/Helpers/Color+MusicalDistance.swift")]

/-- The `key_files` list of `check_new_structure()`. -/
def key_files : List String :=
  ["App/FrequencyFinder.swift",
   "Core/Models/Spotify/SpotifyModels.swift",
   "Core/Services/Spotify/SpotifyManager.swift",
   "Features/Spotify/Views/SpotifyView.swift"]

/-- `base_path / file_path` of the source (`pathlib` joins with a
slash). -/
def fullPath (f : String) : String := base_path ++ "/" ++ f

/-- One line of `check_new_structure()`'s per-file output: a checkmark
or a cross for the named key file. -/
inductive Flag where
  | check (f : String)
  | cross (f : String)
deriving DecidableEq

/-- `check_new_structure()` against an abstract filesystem-existence
predicate `ex` on absolute paths: the loop starts from `all_exist =
True`, flags each key file, and clears `all_exist` on a missing one.
Returns the aggregate boolean and the flags in print order. -/
def check_new_structure (ex : String → Bool) : Bool × List Flag :=
  key_files.foldl
    (fun acc f =>
      if ex (fullPath f) then (acc.1, acc.2 ++ [Flag.check f])
      else (false, acc.2 ++ [Flag.cross f]))
    (true, [])

/-- Split a text into its newline-terminated lines (without their
terminators) and the trailing remainder after the last newline. -/
def splitLines : List Char → List (List Char) × List Char
  | [] => ([], [])
  | c :: t =>
    match splitLines t with
    | (ls, r) =>
      if c = '\n' then ([] :: ls, r)
      else
        match ls with
        | [] => ([], c :: r)
        | l :: ls2 => ((c :: l) :: ls2, r)

/-- Rebuild a text from newline-terminated lines and a remainder. -/
def joinLines (ls : List (List Char)) (r : List Char) : List Char :=
  (ls.map (fun l => l ++ ['\n'])).flatten ++ r

/-- Keep exactly the newline-terminated lines on which `p` is false (and
the trailing remainder): the line-by-line reading of one `re.sub`
pass. -/
def filterLines (p : List Char → Bool) (s : List Char) : List Char :=
  joinLines (((splitLines s).1).filter (fun l => !(p l))) (splitLines s).2

/-- Spec-side predicate: the line contains some removal-list filename as
a contiguous substring ("any line containing the filename"). -/
def referencesOldFile (l : List Char) : Bool :=
  oldFiles.any fun f => decide (f <:+: l)

/-- The spec's description of the cleaner's whole transform, stated from
the spec's words for comparison with `cleanContent` (which is embedded
from the code): remove every newline-terminated line that references a
removal-list filename and keep every other line, and the trailing
remainder, byte for byte. -/
def specClean (s : List Char) : List Char :=
  joinLines (((splitLines s).1).filter fun l => !(referencesOldFile l)) (splitLines s).2

/-! ### Basic lemmas about the literal-search primitives -/

theorem startsWith_iff (a s : List Char) : startsWith a s = true ↔ ∃ t, s = a ++ t := by
  induction a generalizing s with
  | nil => simp [startsWith]
  | cons x xs ih =>
    cases s with
    | nil => simp [startsWith]
    | cons y ys =>
      simp only [startsWith, Bool.and_eq_true, decide_eq_true_eq, ih, List.cons_append,
        List.cons.injEq]
      constructor
      · rintro ⟨rfl, t, rfl⟩
        exact ⟨t, rfl, rfl⟩
      · rintro ⟨t, rfl, rfl⟩
        exact ⟨rfl, t, rfl⟩

theorem findLit_some (a : List Char) :
    ∀ s v, findLit a s = some v → ∃ u, s = u ++ a ++ v := by
  intro s
  induction s with
  | nil =>
    intro v h
    simp only [findLit] at h
    split at h
    · rename_i hsw
      obtain ⟨t, ht⟩ := (startsWith_iff a []).mp hsw
      have ha : a = [] ∧ t = [] := List.append_eq_nil.mp ht.symm
      cases h
      exact ⟨[], by simp [ha.1]⟩
    · cases h
  | cons c t ih =>
    intro v h
    simp only [findLit] at h
    split at h
    · rename_i hsw
      obtain ⟨w, hw⟩ := (startsWith_iff a (c :: t)).mp hsw
      cases h
      refine ⟨[], ?_⟩
      simp [hw, List.drop_left]
    · obtain ⟨u, hu⟩ := ih v h
      exact ⟨c :: u, by simp [hu]⟩

theorem suffix_drop_sub (l₁ l₂ : List Char) (h : l₁ <:+ l₂) :
    l₂.drop (l₂.length - l₁.length) = l₁ := by
  obtain ⟨u, rfl⟩ := h
  have : (u ++ l₁).length - l₁.length = u.length := by simp
  rw [this, List.drop_left]

theorem suffix_of_suffix_le (l₁ l₂ l₃ : List Char) (h₁ : l₁ <:+ l₃) (h₂ : l₂ <:+ l₃)
    (hle : l₁.length ≤ l₂.length) : l₁ <:+ l₂ := by
  obtain ⟨u₁, hu₁⟩ := h₁
  obtain ⟨u₂, hu₂⟩ := h₂
  have hlen : u₂.length ≤ u₁.length := by
    have e := congrArg List.length hu₁
    have e2 := congrArg List.length hu₂
    simp only [List.length_append] at e e2
    omega
  refine ⟨u₁.drop u₂.length, ?_⟩
  have heq : u₂ ++ l₂ = u₁ ++ l₁ := hu₂.trans hu₁.symm
  have hdrop := congrArg (List.drop u₂.length) heq
  rw [List.drop_left, List.drop_append_of_le_length hlen] at hdrop
  exact hdrop.symm

theorem findLit_of_decomp (a : List Char) :
    ∀ u v, ∃ w, findLit a (u ++ a ++ v) = some w ∧ v <:+ w := by
  intro u
  induction u with
  | nil =>
    intro v
    refine ⟨v, ?_, List.suffix_refl v⟩
    cases a with
    | nil => cases v <;> simp [findLit, startsWith]
    | cons x xs =>
      have hsw : startsWith (x :: xs) (x :: (xs ++ v)) = true :=
        (startsWith_iff _ _).mpr ⟨v, by simp⟩
      have hshow : ([] : List Char) ++ (x :: xs) ++ v = x :: (xs ++ v) := by simp
      rw [hshow]
      simp only [findLit]
      rw [if_pos hsw, List.length_cons, List.drop_succ_cons, List.drop_left]
  | cons c u2 ih =>
    intro v
    have hshow : (c :: u2) ++ a ++ v = c :: (u2 ++ a ++ v) := by simp
    rw [hshow]
    by_cases hsw : startsWith a (c :: (u2 ++ a ++ v)) = true
    · refine ⟨(c :: (u2 ++ a ++ v)).drop a.length, ?_, ?_⟩
      · simp only [findLit]
        rw [if_pos hsw]
      · have hsuf : v <:+ c :: (u2 ++ a ++ v) := ⟨c :: (u2 ++ a), by simp⟩
        have hdrop : (c :: (u2 ++ a ++ v)).drop a.length <:+ c :: (u2 ++ a ++ v) :=
          List.drop_suffix _ _
        refine suffix_of_suffix_le v _ _ hsuf hdrop ?_
        simp only [List.length_drop, List.length_cons, List.length_append]
        omega
    · obtain ⟨w, hw, hsuf⟩ := ih v
      refine ⟨w, ?_, hsuf⟩
      simp only [findLit]
      rw [if_neg hsw]
      exact hw

theorem containsInOrder_suffix :
    ∀ (lits : List (List Char)) (v w : List Char), v <:+ w →
      containsInOrder lits v = true → containsInOrder lits w = true := by
  intro lits
  induction lits with
  | nil => intro v w _ _; rfl
  | cons a rest ih =>
    intro v w hvw hv
    simp only [containsInOrder] at hv ⊢
    cases hfv : findLit a v with
    | none => rw [hfv] at hv; cases hv
    | some v₁ =>
      rw [hfv] at hv
      obtain ⟨u, hu⟩ := findLit_some a v v₁ hfv
      obtain ⟨p, rfl⟩ := hvw
      have hdec : p ++ v = (p ++ u) ++ a ++ v₁ := by simp [hu]
      obtain ⟨w₁, hw₁, hsuf⟩ := findLit_of_decomp a (p ++ u) v₁
      rw [← hdec] at hw₁
      rw [hw₁]
      exact ih v₁ w₁ hsuf hv

theorem containsInOrder_head (a : List Char) (rest : List (List Char)) (s : List Char)
    (h : containsInOrder (a :: rest) s = true) : containsInOrder [a] s = true := by
  simp only [containsInOrder] at h ⊢
  cases hfv : findLit a s with
  | none => rw [hfv] at h; cases h
  | some v => rfl

theorem containsInOrder_nil_false (a : List Char) (rest : List (List Char)) (ha : a ≠ []) :
    containsInOrder (a :: rest) [] = false := by
  cases a with
  | nil => exact absurd rfl ha
  | cons x xs => simp [containsInOrder, findLit, startsWith]

/-! ### Splitting at the first newline, and the scanning loop -/

theorem splitFirstNewline_none : ∀ s : List Char, splitFirstNewline s = none ↔ '\n' ∉ s := by
  intro s
  induction s with
  | nil => simp [splitFirstNewline]
  | cons c t ih =>
    cases h : splitFirstNewline t with
    | none =>
      have ht : '\n' ∉ t := ih.mp h
      by_cases hc : c = '\n'
      · subst hc
        simp [splitFirstNewline]
      · simp only [splitFirstNewline, hc, if_neg, h, List.mem_cons, not_or]
        constructor
        · intro _
          exact ⟨fun he => hc he.symm, ht⟩
        · intro _
          rfl
    | some p =>
      have ht : '\n' ∈ t := by
        by_contra hmem
        rw [← ih] at hmem
        rw [h] at hmem
        cases hmem
      by_cases hc : c = '\n'
      · subst hc
        simp [splitFirstNewline, ht]
      · simp [splitFirstNewline, hc, h, ht]

theorem splitFirstNewline_some :
    ∀ s l r, splitFirstNewline s = some (l, r) → s = l ++ '\n' :: r ∧ '\n' ∉ l := by
  intro s
  induction s with
  | nil => intro l r h; cases h
  | cons c t ih =>
    intro l r h
    by_cases hc : c = '\n'
    · subst hc
      simp only [splitFirstNewline, if_pos] at h
      cases h
      simp
    · simp only [splitFirstNewline, hc, if_neg] at h
      cases ht : splitFirstNewline t with
      | none => rw [ht] at h; cases h
      | some p =>
        obtain ⟨l', r'⟩ := p
        rw [ht] at h
        obtain ⟨he, hnl⟩ := ih l' r' ht
        cases h
        constructor
        · simp [he]
        · simp only [List.mem_cons, not_or]
          exact ⟨fun hh => hc hh.symm, hnl⟩

theorem splitFirstNewline_of (l r : List Char) (hl : '\n' ∉ l) :
    splitFirstNewline (l ++ '\n' :: r) = some (l, r) := by
  induction l with
  | nil => simp [splitFirstNewline]
  | cons c l2 ih =>
    have hc : ¬ c = '\n' := fun h => hl (by simp [h])
    have hl2 : '\n' ∉ l2 := fun h => hl (List.mem_cons_of_mem _ h)
    simp only [List.cons_append, splitFirstNewline]
    rw [if_neg hc]
    simp only [List.append_eq]
    rw [ih hl2]

theorem matchAt_line (lits : List (List Char)) (l r : List Char) (hl : '\n' ∉ l) :
    matchAt lits (l ++ '\n' :: r) =
      if containsInOrder lits l then some r else none := by
  rw [matchAt, splitFirstNewline_of l r hl]

theorem matchAt_some (lits : List (List Char)) (s rest : List Char)
    (h : matchAt lits s = some rest) :
    ∃ line, s = line ++ '\n' :: rest ∧ '\n' ∉ line ∧ containsInOrder lits line = true := by
  cases hs : splitFirstNewline s with
  | none =>
    rw [matchAt, hs] at h
    cases h
  | some p =>
    obtain ⟨line, rest'⟩ := p
    have hmm : matchAt lits s =
        if containsInOrder lits line = true then some rest' else none := by
      rw [matchAt, hs]
    rw [h] at hmm
    by_cases hc : containsInOrder lits line = true
    · rw [if_pos hc] at hmm
      cases hmm
      obtain ⟨he, hnl⟩ := splitFirstNewline_some s line rest hs
      exact ⟨line, he, hnl, hc⟩
    · rw [if_neg hc] at hmm
      cases hmm

theorem matchAt_none_of_no_newline (lits : List (List Char)) (s : List Char)
    (h : '\n' ∉ s) : matchAt lits s = none := by
  rw [matchAt, (splitFirstNewline_none s).mpr h]

theorem matchAt_some_length (lits : List (List Char)) (s rest : List Char)
    (h : matchAt lits s = some rest) : rest.length < s.length := by
  obtain ⟨line, he, -, -⟩ := matchAt_some lits s rest h
  rw [he]
  simp only [List.length_append, List.length_cons]
  omega

theorem reSubFuel_fuel (lits : List (List Char)) :
    ∀ f₁ f₂ s, s.length ≤ f₁ → s.length ≤ f₂ →
      reSubFuel lits f₁ s = reSubFuel lits f₂ s := by
  intro f₁
  induction f₁ with
  | zero =>
    intro f₂ s h₁ _
    have : s = [] := List.eq_nil_of_length_eq_zero (Nat.le_zero.mp h₁)
    subst this
    simp [reSubFuel]
  | succ g ih =>
    intro f₂ s h₁ h₂
    cases s with
    | nil => simp [reSubFuel]
    | cons c t =>
      cases f₂ with
      | zero => simp at h₂
      | succ g2 =>
        simp only [reSubFuel]
        cases hm : matchAt lits (c :: t) with
        | some rest =>
          have hlt := matchAt_some_length lits (c :: t) rest hm
          simp only [List.length_cons] at h₁ h₂ hlt
          exact ih g2 rest (by omega) (by omega)
        | none =>
          simp only [List.length_cons] at h₁ h₂
          rw [ih g2 t (by omega) (by omega)]

theorem reSub_fuel (lits : List (List Char)) (s : List Char) (fuel : Nat)
    (h : s.length ≤ fuel) : reSub lits s = reSubFuel lits fuel s :=
  reSubFuel_fuel lits s.length fuel s (le_refl _) h

theorem reSub_cons_step (lits : List (List Char)) (c : Char) (t : List Char) :
    reSub lits (c :: t) =
      match matchAt lits (c :: t) with
      | some rest => reSubFuel lits t.length rest
      | none => c :: reSubFuel lits t.length t := by
  rw [reSub, List.length_cons]
  simp only [reSubFuel]

theorem reSub_no_newline (lits : List (List Char)) :
    ∀ s, '\n' ∉ s → reSub lits s = s := by
  intro s
  induction s with
  | nil => intro _; rfl
  | cons c t ih =>
    intro h
    have ht : '\n' ∉ t := fun hm => h (List.mem_cons_of_mem _ hm)
    rw [reSub_cons_step, matchAt_none_of_no_newline lits (c :: t) h]
    show c :: reSub lits t = c :: t
    rw [ih ht]

theorem reSub_match (lits : List (List Char)) (l r : List Char) (hl : '\n' ∉ l)
    (hc : containsInOrder lits l = true) :
    reSub lits (l ++ '\n' :: r) = reSub lits r := by
  obtain ⟨c, t, hct, hlen⟩ :
      ∃ c t, l ++ '\n' :: r = c :: t ∧ r.length ≤ t.length := by
    cases l with
    | nil => exact ⟨'\n', r, rfl, le_refl _⟩
    | cons x l2 =>
      refine ⟨x, l2 ++ '\n' :: r, by simp, ?_⟩
      simp only [List.length_append, List.length_cons]
      omega
  have hm : matchAt lits (l ++ '\n' :: r) = some r := by
    rw [matchAt_line lits l r hl, if_pos hc]
  rw [hct] at hm ⊢
  rw [reSub_cons_step, hm]
  exact (reSub_fuel lits r t.length hlen).symm

theorem reSub_skip (lits : List (List Char)) (hnil : containsInOrder lits [] = false) :
    ∀ l r, '\n' ∉ l → containsInOrder lits l = false →
      reSub lits (l ++ '\n' :: r) = l ++ '\n' :: reSub lits r := by
  intro l
  induction l with
  | nil =>
    intro r _ _
    have hm : matchAt lits ([] ++ '\n' :: r) = none := by
      rw [matchAt_line lits [] r (by simp), if_neg]
      simp [hnil]
    rw [List.nil_append] at hm
    rw [List.nil_append, reSub_cons_step, hm]
    show '\n' :: reSub lits r = _
    rfl
  | cons x l2 ih =>
    intro r hl hc
    have hl2 : '\n' ∉ l2 := fun h => hl (List.mem_cons_of_mem _ h)
    have hc2 : containsInOrder lits l2 = false := by
      by_contra hcc
      rw [Bool.not_eq_false] at hcc
      have := containsInOrder_suffix lits l2 (x :: l2) ⟨[x], rfl⟩ hcc
      rw [hc] at this
      cases this
    have hm : matchAt lits ((x :: l2) ++ '\n' :: r) = none := by
      rw [matchAt_line lits (x :: l2) r hl, if_neg]
      simp [hc]
    rw [List.cons_append] at hm
    rw [List.cons_append, reSub_cons_step, hm]
    show x :: reSub lits (l2 ++ '\n' :: r) = _
    rw [ih r hl2 hc2]
    simp

/-! ### Decomposing a text into newline-terminated lines and a remainder -/

theorem joinLines_nil (r : List Char) : joinLines [] r = r := by
  simp [joinLines]

theorem joinLines_cons (l : List Char) (ls : List (List Char)) (r : List Char) :
    joinLines (l :: ls) r = l ++ '\n' :: joinLines ls r := by
  simp [joinLines]

theorem splitLines_no_newline : ∀ s : List Char, '\n' ∉ s → splitLines s = ([], s) := by
  intro s
  induction s with
  | nil => intro _; rfl
  | cons c t ih =>
    intro h
    have hc : ¬ c = '\n' := fun hh => h (by simp [hh])
    have ht : '\n' ∉ t := fun hm => h (List.mem_cons_of_mem _ hm)
    simp only [splitLines, ih ht]
    rw [if_neg hc]

theorem splitLines_line (l : List Char) (hl : '\n' ∉ l) :
    ∀ r, splitLines (l ++ '\n' :: r) = (l :: (splitLines r).1, (splitLines r).2) := by
  induction l with
  | nil =>
    intro r
    simp [splitLines]
  | cons c l2 ih =>
    intro r
    have hc : ¬ c = '\n' := fun hh => hl (by simp [hh])
    have hl2 : '\n' ∉ l2 := fun hm => hl (List.mem_cons_of_mem _ hm)
    simp only [List.cons_append, splitLines, List.append_eq, ih hl2 r]
    rw [if_neg hc]

theorem splitLines_newline_free :
    ∀ s : List Char, (∀ l ∈ (splitLines s).1, '\n' ∉ l) ∧ '\n' ∉ (splitLines s).2 := by
  intro s
  induction s with
  | nil => exact ⟨by simp [splitLines], by simp [splitLines]⟩
  | cons c t ih =>
    obtain ⟨ih1, ih2⟩ := ih
    rcases hp : splitLines t with ⟨ls, r⟩
    rw [hp] at ih1 ih2
    simp only [splitLines, hp]
    by_cases hc : c = '\n'
    · rw [if_pos hc]
      refine ⟨?_, ih2⟩
      intro l hl
      rcases List.mem_cons.mp hl with h | h
      · subst h; simp
      · exact ih1 l h
    · rw [if_neg hc]
      cases ls with
      | nil =>
        refine ⟨by simp, ?_⟩
        simp only [List.mem_cons, not_or]
        exact ⟨fun hh => hc hh.symm, ih2⟩
      | cons l0 ls2 =>
        refine ⟨?_, ih2⟩
        intro l hl
        rcases List.mem_cons.mp hl with h | h
        · subst h
          simp only [List.mem_cons, not_or]
          exact ⟨fun hh => hc hh.symm, ih1 l0 (List.mem_cons_self _ _)⟩
        · exact ih1 l (List.mem_cons_of_mem _ h)

theorem joinLines_splitLines :
    ∀ s : List Char, joinLines (splitLines s).1 (splitLines s).2 = s := by
  intro s
  induction s with
  | nil => simp [splitLines, joinLines]
  | cons c t ih =>
    rcases hp : splitLines t with ⟨ls, r⟩
    rw [hp] at ih
    have ih' : joinLines ls r = t := ih
    simp only [splitLines, hp]
    by_cases hc : c = '\n'
    · rw [if_pos hc, hc]
      show joinLines ([] :: ls) r = '\n' :: t
      rw [joinLines_cons, List.nil_append, ih']
    · rw [if_neg hc]
      cases ls with
      | nil =>
        show joinLines [] (c :: r) = c :: t
        rw [joinLines_nil]
        rw [joinLines_nil] at ih'
        rw [ih']
      | cons l0 ls2 =>
        show joinLines ((c :: l0) :: ls2) r = c :: t
        rw [joinLines_cons] at ih'
        rw [joinLines_cons, List.cons_append, ih']

theorem splitLines_joinLines :
    ∀ (ls : List (List Char)) (r : List Char), (∀ l ∈ ls, '\n' ∉ l) → '\n' ∉ r →
      splitLines (joinLines ls r) = (ls, r) := by
  intro ls
  induction ls with
  | nil =>
    intro r _ hr
    rw [joinLines_nil]
    exact splitLines_no_newline r hr
  | cons l ls2 ih =>
    intro r hls hr
    rw [joinLines_cons]
    rw [splitLines_line l (hls l (List.mem_cons_self _ _)) (joinLines ls2 r)]
    rw [ih r (fun x hx => hls x (List.mem_cons_of_mem _ hx)) hr]

/-! ### One `re.sub` pass is a per-line filter -/

theorem reSub_eq_filterLines (lits : List (List Char))
    (hnil : containsInOrder lits [] = false) :
    ∀ s, reSub lits s = filterLines (fun l => containsInOrder lits l) s := by
  suffices h : ∀ n s, List.length s ≤ n →
      reSub lits s = filterLines (fun l => containsInOrder lits l) s by
    intro s
    exact h s.length s (le_refl _)
  intro n
  induction n with
  | zero =>
    intro s hs
    have hnilx : s = [] := List.eq_nil_of_length_eq_zero (Nat.le_zero.mp hs)
    subst hnilx
    simp [reSub, reSubFuel, filterLines, splitLines, joinLines]
  | succ m ih =>
    intro s hs
    cases hnl : splitFirstNewline s with
    | none =>
      have hno : '\n' ∉ s := (splitFirstNewline_none s).mp hnl
      rw [reSub_no_newline lits s hno, filterLines, splitLines_no_newline s hno]
      show s = joinLines (List.filter _ []) s
      simp [joinLines]
    | some p =>
      obtain ⟨l, r⟩ := p
      obtain ⟨he, hlnl⟩ := splitFirstNewline_some s l r hnl
      subst he
      have hr : r.length ≤ m := by
        simp only [List.length_append, List.length_cons] at hs
        omega
      by_cases hc : containsInOrder lits l = true
      · rw [reSub_match lits l r hlnl hc, ih r hr]
        rw [filterLines, filterLines, splitLines_line l hlnl r]
        show joinLines (List.filter _ ((splitLines r).1)) (splitLines r).2 =
          joinLines (List.filter _ (l :: (splitLines r).1)) (splitLines r).2
        rw [List.filter_cons_of_neg]
        simp [hc]
      · have hcf : containsInOrder lits l = false := by
          cases hb : containsInOrder lits l with
          | true => exact absurd hb hc
          | false => rfl
        rw [reSub_skip lits hnil l r hlnl hcf, ih r hr]
        rw [filterLines, filterLines, splitLines_line l hlnl r]
        show l ++ '\n' :: joinLines (List.filter _ ((splitLines r).1)) (splitLines r).2 =
          joinLines (List.filter _ (l :: (splitLines r).1)) (splitLines r).2
        rw [List.filter_cons_of_pos]
        · rw [joinLines_cons]
        · simp [hcf]

theorem filterLines_comp (p q : List Char → Bool) (s : List Char) :
    filterLines q (filterLines p s) = filterLines (fun l => p l || q l) s := by
  rcases hp : splitLines s with ⟨ls, r⟩
  obtain ⟨h1, h2⟩ := splitLines_newline_free s
  rw [hp] at h1 h2
  have h1' : ∀ l ∈ ls, '\n' ∉ l := h1
  have h2' : '\n' ∉ r := h2
  have hfl : ∀ a : List Char → Bool,
      filterLines a s = joinLines (ls.filter fun l => !(a l)) r := by
    intro a
    rw [filterLines, hp]
  rw [hfl p, hfl (fun l => p l || q l)]
  rw [filterLines,
    splitLines_joinLines (ls.filter fun l => !(p l)) r
      (fun l hl => h1' l (List.mem_of_mem_filter hl)) h2']
  show joinLines (List.filter _ (ls.filter fun l => !(p l))) r = _
  rw [List.filter_filter]
  congr 1
  apply List.filter_congr
  intro x _
  cases hpx : p x <;> cases hqx : q x <;> rfl

theorem filterLines_congr (p q : List Char → Bool) (h : ∀ l, p l = q l) (s : List Char) :
    filterLines p s = filterLines q s := by
  have : p = q := funext h
  rw [this]

/-! ### The cleaner's transform as a per-line filter -/

theorem cio_single_iff (f l : List Char) : containsInOrder [f] l = true ↔ f <:+: l := by
  constructor
  · intro h
    simp only [containsInOrder] at h
    cases hf : findLit f l with
    | none => rw [hf] at h; cases h
    | some v =>
      obtain ⟨u, hu⟩ := findLit_some f l v hf
      exact ⟨u, v, hu.symm⟩
  · rintro ⟨u, v, huv⟩
    obtain ⟨w, hw, -⟩ := findLit_of_decomp f u v
    simp only [containsInOrder]
    rw [huv] at hw
    rw [hw]

theorem cio_single_eq (f l : List Char) : containsInOrder [f] l = decide (f <:+: l) := by
  by_cases h : f <:+: l
  · rw [decide_eq_true h]
    exact (cio_single_iff f l).mpr h
  · rw [decide_eq_false h]
    cases hb : containsInOrder [f] l with
    | false => rfl
    | true => exact absurd ((cio_single_iff f l).mp hb) h

theorem removeForFile_eq (f : List Char) (hf : f ≠ []) (s : List Char) :
    removeForFile f s = filterLines (fun l => containsInOrder [f] l) s := by
  have hnilA : containsInOrder [f, inSources] [] = false := containsInOrder_nil_false f _ hf
  have hnilB : containsInOrder [f] [] = false := containsInOrder_nil_false f _ hf
  have hnilC : containsInOrder [f, sourcesLit] [] = false := containsInOrder_nil_false f _ hf
  rw [removeForFile,
    reSub_eq_filterLines [f, inSources] hnilA s,
    reSub_eq_filterLines [f] hnilB _,
    reSub_eq_filterLines [f, sourcesLit] hnilC _,
    filterLines_comp, filterLines_comp]
  apply filterLines_congr
  intro l
  cases hb : containsInOrder [f] l with
  | true => simp [hb]
  | false =>
    have hA : containsInOrder [f, inSources] l = false := by
      cases hA : containsInOrder [f, inSources] l with
      | false => rfl
      | true =>
        have := containsInOrder_head f [inSources] l hA
        rw [hb] at this
        cases this
    have hC : containsInOrder [f, sourcesLit] l = false := by
      cases hC : containsInOrder [f, sourcesLit] l with
      | false => rfl
      | true =>
        have := containsInOrder_head f [sourcesLit] l hC
        rw [hb] at this
        cases this
    simp [hA, hb, hC]

theorem filterLines_true_of (s : List Char) :
    filterLines (fun _ => false) s = s := by
  rw [filterLines]
  have : (((splitLines s).1).filter fun l => !(false : Bool)) = (splitLines s).1 := by
    simp
  rw [this]
  exact joinLines_splitLines s

theorem foldl_removeForFile (fs : List (List Char)) (h : ∀ f ∈ fs, f ≠ []) :
    ∀ s, fs.foldl (fun c f => removeForFile f c) s =
      filterLines (fun l => fs.any fun f => containsInOrder [f] l) s := by
  induction fs with
  | nil =>
    intro s
    simp only [List.foldl_nil, List.any_nil]
    exact (filterLines_true_of s).symm
  | cons f fs2 ih =>
    intro s
    have hf : f ≠ [] := h f (List.mem_cons_self _ _)
    have h2 : ∀ g ∈ fs2, g ≠ [] := fun g hg => h g (List.mem_cons_of_mem _ hg)
    rw [List.foldl_cons, ih h2 (removeForFile f s), removeForFile_eq f hf s,
      filterLines_comp]
    apply filterLines_congr
    intro l
    simp

theorem cleanContent_eq_filterLines (s : List Char) :
    cleanContent s = filterLines (fun l => oldFiles.any fun f => containsInOrder [f] l) s := by
  have h : ∀ f ∈ oldFiles, f ≠ [] := by decide
  exact foldl_removeForFile oldFiles h s

theorem cleanContent_eq_specClean (s : List Char) : cleanContent s = specClean s := by
  rw [cleanContent_eq_filterLines]
  show filterLines _ s = filterLines referencesOldFile s
  apply filterLines_congr
  intro l
  simp only [referencesOldFile, cio_single_eq]

/-! ### Claim theorems -/

/-- C1 counterexample: a manifest whose final line references
`OldSpotifyManager.swift` but is not newline-terminated.  The line
references a removal-list filename, yet the transform removes nothing
(every pattern needs the trailing `\n`), so the cleaner does not remove
"every line containing that filename". -/
theorem clean_keeps_unterminated_reference :
    referencesOldFile "A.build /* OldSpotifyManager.swift in Sources */".toList = true ∧
    cleanContent "A.build /* OldSpotifyManager.swift in Sources */".toList =
      "A.build /* OldSpotifyManager.swift in Sources */".toList := by
  constructor
  · decide
  · rw [cleanContent_eq_specClean]
    decide

/-- C1 (amended): the transform removes exactly the newline-terminated
lines containing a removal-list filename and leaves all other lines —
including a final line not terminated by a newline — byte for byte
unchanged; in particular, on the spec's two-line example only the second
line remains. -/
theorem clean_removes_referencing_lines :
    (∀ s : List Char, cleanContent s = specClean s) ∧
    cleanContent ("A.build /* OldSpotifyManager.swift in Sources */\n" ++
        "B.build /* OtherFile.swift in Sources */\n").toList =
      "B.build /* OtherFile.swift in Sources */\n".toList := by
  refine ⟨cleanContent_eq_specClean, ?_⟩
  rw [cleanContent_eq_specClean]
  decide

/-- C2: the Structure Checker returns `True` exactly when all four key
files exist under the base directory, and its per-file output flags a
checkmark for each present file and a cross for exactly the missing
ones. -/
theorem check_new_structure_spec :
    ∀ ex : String → Bool,
      ((check_new_structure ex).1 = true ↔ ∀ f ∈ key_files, ex (fullPath f) = true) ∧
      (check_new_structure ex).2 =
        key_files.map fun f => if ex (fullPath f) then Flag.check f else Flag.cross f := by
  intro ex
  simp only [check_new_structure, key_files, List.foldl_cons, List.foldl_nil, List.map]
  by_cases h1 : ex (fullPath "App/FrequencyFinder.swift") = true <;>
    by_cases h2 : ex (fullPath "Core/Models/Spotify/SpotifyModels.swift") = true <;>
      by_cases h3 : ex (fullPath "Core/Services/Spotify/SpotifyManager.swift") = true <;>
        by_cases h4 : ex (fullPath "Features/Spotify/Views/SpotifyView.swift") = true <;>
          simp [h1, h2, h3, h4]

/-- C3: the cleaner's transform is idempotent, and a second run on the
file produced by a first run reports "no references found" and returns
`False`. -/
theorem cleaner_idempotent :
    ∀ (s : List Char) (b : Option (List Char)),
      cleanContent (cleanContent s) = cleanContent s ∧
      (clean_xcode_references (clean_xcode_references ⟨some s, b⟩).fs).report =
        Report.noRefs ∧
      (clean_xcode_references (clean_xcode_references ⟨some s, b⟩).fs).ret = false := by
  intro s b
  have hid : ∀ t : List Char, cleanContent (cleanContent t) = cleanContent t := by
    intro t
    rw [cleanContent_eq_filterLines, cleanContent_eq_filterLines, filterLines_comp]
    apply filterLines_congr
    intro l
    simp
  refine ⟨hid s, ?_⟩
  by_cases hch : (cleanContent s).length ≠ s.length
  · have h1 : clean_xcode_references ⟨some s, b⟩ =
        ⟨⟨some (cleanContent s), some s⟩, true,
          Report.cleaned (s.length - (cleanContent s).length)⟩ := by
      simp [clean_xcode_references, hch]
    rw [h1]
    have h2 := hid s
    constructor <;> simp [clean_xcode_references, h2]
  · have h1 : clean_xcode_references ⟨some s, b⟩ =
        ⟨⟨some s, some s⟩, false, Report.noRefs⟩ := by
      simp [clean_xcode_references, hch]
    rw [h1]
    constructor <;> simp [clean_xcode_references, hch]

/-- C4: in every run on an existing manifest — whether or not anything
is removed — the backup file afterwards holds exactly the manifest's
content from immediately before any modification. -/
theorem backup_matches_prior_content :
    ∀ (content : List Char) (b : Option (List Char)),
      (clean_xcode_references ⟨some content, b⟩).fs.backup = some content := by
  intro content b
  by_cases h : (cleanContent content).length ≠ content.length <;>
    simp [clean_xcode_references, h]

/-- C5: when the manifest does not exist the cleaner returns `False`,
reports the failure, and leaves the filesystem untouched: no backup is
created and nothing is written. -/
theorem missing_manifest_reports_failure :
    ∀ b : Option (List Char),
      clean_xcode_references ⟨none, b⟩ = ⟨⟨none, b⟩, false, Report.notFound⟩ := by
  intro b
  rfl

/-- C6: the cleaner writes the manifest exactly when the transformed
text's length differs from the original's: on a length change it
overwrites the manifest with the transformed text, returns `True` and
reports original length minus new length characters removed; otherwise
it reports "no references found", returns `False` and leaves the
manifest untouched. -/
theorem write_iff_length_differs :
    ∀ (content : List Char) (b : Option (List Char)),
      ((cleanContent content).length ≠ content.length →
        clean_xcode_references ⟨some content, b⟩ =
          ⟨⟨some (cleanContent content), some content⟩, true,
            Report.cleaned (content.length - (cleanContent content).length)⟩) ∧
      ((cleanContent content).length = content.length →
        clean_xcode_references ⟨some content, b⟩ =
          ⟨⟨some content, some content⟩, false, Report.noRefs⟩) := by
  intro content b
  constructor
  · intro h
    simp [clean_xcode_references, h]
  · intro h
    simp [clean_xcode_references, h]

/-- C7: for every removal-list filename and every text, the three
substitutions (a), (b), (c) applied in the source's order produce the
same text as substitution (b) — any line containing the filename —
alone. -/
theorem pattern_b_subsumes (f : List Char) (hf : f ∈ oldFiles) (s : List Char) :
    removeForFile f s = reSub [f] s := by
  have hfne : f ≠ [] := (by decide : ∀ g ∈ oldFiles, g ≠ []) f hf
  rw [removeForFile_eq f hfne s,
    reSub_eq_filterLines [f] (containsInOrder_nil_false f [] hfne) s]

theorem pattern_b_subsumes_witness :
    ("OldSpotifyManager.swift".toList ∈ oldFiles) ∧
    removeForFile "OldSpotifyManager.swift".toList
        "x OldSpotifyManager.swift\nkeep\n".toList =
      reSub ["OldSpotifyManager.swift".toList] "x OldSpotifyManager.swift\nkeep\n".toList :=
  ⟨by decide, pattern_b_subsumes _ (by decide) _⟩

/-- C8 counterexample: the adversarial input the claim fears — the
filename occurring mid-line with a following line — loses exactly the
one line containing the filename and its terminator; the match does not
consume anything of the next line. -/
theorem single_line_deleted_only :
    reSub ["OldSpotifyManager.swift".toList]
        "xx OldSpotifyManager.swift yy\nNEXT LINE\n".toList =
      "NEXT LINE\n".toList := by
  rw [reSub_eq_filterLines _ (by decide)]
  decide

/-- C8 (amended): no removal-pattern match spans beyond the line
containing the matched filename: since `.` does not match a newline,
every match consists of newline-free text followed by exactly the first
newline, so each match deletes one entire newline-terminated line and
never more. -/
theorem match_stays_within_line (lits : List (List Char)) (s rest : List Char)
    (h : matchAt lits s = some rest) :
    ∃ line, s = line ++ '\n' :: rest ∧ '\n' ∉ line := by
  obtain ⟨line, he, hnl, -⟩ := matchAt_some lits s rest h
  exact ⟨line, he, hnl⟩

theorem match_stays_within_line_witness :
    matchAt ["OldSpotifyManager.swift".toList]
        "xx OldSpotifyManager.swift yy\nNEXT LINE\n".toList =
      some "NEXT LINE\n".toList ∧
    ∃ line, "xx OldSpotifyManager.swift yy\nNEXT LINE\n".toList =
        line ++ '\n' :: "NEXT LINE\n".toList ∧ '\n' ∉ line :=
  ⟨by decide,
    match_stays_within_line ["OldSpotifyManager.swift".toList]
      "xx OldSpotifyManager.swift yy\nNEXT LINE\n".toList "NEXT LINE\n".toList (by decide)⟩

/-- C9 counterexample: a key file whose existence the checker tests and
which is not a value of the mapping table — so the checker is not
consulting the mapping's values. -/
theorem key_file_not_mapping_value :
    "Core/Models/Spotify/SpotifyModels.swift" ∈ key_files ∧
    "Core/Models/Spotify/SpotifyModels.swift" ∉ file_mapping.map Prod.snd := by
  constructor
  · decide
  · decide

/-- C9 (amended): the mapping table is not consulted at all by the
Structure Checker: the checker's outcome depends only on the existence
of its own fixed key-files list (of which only the first entry happens
to coincide with a mapping value); the mapping's keys and values are
both unused. -/
theorem mapping_not_consulted :
    key_files.filter (fun f => (file_mapping.map Prod.snd).contains f) =
      ["App/FrequencyFinder.swift"] ∧
    ∀ ex ex' : String → Bool,
      (∀ f ∈ key_files, ex (fullPath f) = ex' (fullPath f)) →
      check_new_structure ex = check_new_structure ex' := by
  constructor
  · decide
  · intro ex ex' h
    have h1 : ex (fullPath "App/FrequencyFinder.swift") =
        ex' (fullPath "App/FrequencyFinder.swift") := h _ (by simp [key_files])
    have h2 : ex (fullPath "Core/Models/Spotify/SpotifyModels.swift") =
        ex' (fullPath "Core/Models/Spotify/SpotifyModels.swift") := h _ (by simp [key_files])
    have h3 : ex (fullPath "Core/Services/Spotify/SpotifyManager.swift") =
        ex' (fullPath "Core/Services/Spotify/SpotifyManager.swift") := h _ (by simp [key_files])
    have h4 : ex (fullPath "Features/Spotify/Views/SpotifyView.swift") =
        ex' (fullPath "Features/Spotify/Views/SpotifyView.swift") := h _ (by simp [key_files])
    simp only [check_new_structure, key_files, List.foldl_cons, List.foldl_nil, h1, h2, h3, h4]

/-- C10: only newline-terminated lines are ever deleted: the trailing
remainder after the last newline — in particular a final line not
terminated by a newline, even one containing a removal-list filename —
survives every run verbatim, and a text with no newline at all passes
through unchanged. -/
theorem only_terminated_lines_removed :
    ∀ s : List Char,
      (splitLines (cleanContent s)).2 = (splitLines s).2 ∧
      ('\n' ∉ s → cleanContent s = s) := by
  intro s
  constructor
  · rw [cleanContent_eq_filterLines, filterLines]
    rcases hp : splitLines s with ⟨ls, r⟩
    obtain ⟨h1, h2⟩ := splitLines_newline_free s
    rw [hp] at h1 h2
    have h1' : ∀ l ∈ ls, '\n' ∉ l := h1
    have h2' : '\n' ∉ r := h2
    show (splitLines (joinLines (List.filter _ ls) r)).2 = r
    rw [splitLines_joinLines _ r (fun l hl => h1' l (List.mem_of_mem_filter hl)) h2']
  · intro h
    rw [cleanContent_eq_filterLines, filterLines, splitLines_no_newline s h]
    show joinLines (List.filter _ []) s = s
    simp [joinLines]

end FF
